import Mathlib

/-!
Verification development for the two source files of this repository:
`src/vs/workbench/contrib/search/browser/searchActions.ts` (command handlers
over the search-results tree view) and the web embedding bootstrap that
exports `create`.

The tree widget (`WorkbenchObjectTree` / `ITreeNavigator`) and the search
model (`searchModel.ts`) are external to the excerpt; they are modelled
here from the specification's description of the data model: a tree of
renderable match nodes (folder → file → line match) with collapse state,
navigated in visible preorder by an index-based navigator, where expanding
a node reveals its children right after it.
-/

namespace SearchActions

/-- The runtime classes of renderable rows in the search tree:
`FolderMatch` (with `FolderMatchWithResource` as its subclass that carries a
resource URI), `FileMatch`, and `Match` (a line match). -/
inductive RMKind where
  | folderPlain
  | folderWithResource
  | fileMatch
  | lineMatch
deriving DecidableEq

/-- `instanceof FolderMatch` holds for plain folder matches and for
folder matches with a resource (subclass). -/
def RMKind.isFolder : RMKind → Bool
  | .folderPlain => true
  | .folderWithResource => true
  | _ => false

/-- A renderable match row. `id` models JS object identity (unique per node),
`resource` the URI of the node (or of its file), `line`/`col` the start
position of a line match's range, and `previewLines` the full preview lines
of a line match. -/
structure RNode where
  id : Nat
  kind : RMKind
  resource : Nat
  line : Nat
  col : Nat
  previewLines : List String
deriving DecidableEq

mutual
/-- Modelled from the spec: a node of the search-results tree widget,
holding a renderable row, its collapse state and its children. -/
inductive STree where
  | node (elem : RNode) (collapsed : Bool) (children : SForest)
/-- Modelled from the spec: a list of sibling subtrees of the widget. -/
inductive SForest where
  | nil
  | cons (t : STree) (ts : SForest)
end

def STree.rootElem : STree → RNode
  | .node e _ _ => e

def SForest.isNil : SForest → Bool
  | .nil => true
  | .cons _ _ => false

def SForest.rootElems : SForest → List RNode
  | .nil => []
  | .cons t ts => t.rootElem :: ts.rootElems

def SForest.trees : SForest → List STree
  | .nil => []
  | .cons t ts => t :: ts.trees

mutual
/-- Full preorder listing of a subtree, ignoring collapse state. -/
def STree.pre : STree → List RNode
  | .node e _ cs => e :: cs.pre
/-- Full preorder listing of a forest, ignoring collapse state. -/
def SForest.pre : SForest → List RNode
  | .nil => []
  | .cons t ts => t.pre ++ ts.pre
end

mutual
/-- Modelled from the spec: the rows of a subtree the tree widget renders, in
order; children of a collapsed node are hidden. -/
def STree.visible : STree → List RNode
  | .node e c cs => e :: (if c then [] else cs.visible)
/-- Modelled from the spec: the rows of a forest the tree widget renders. -/
def SForest.visible : SForest → List RNode
  | .nil => []
  | .cons t ts => t.visible ++ ts.visible
end

mutual
/-- Modelled from the spec: `viewer.expand` on the node with identity `i`
clears its collapsed flag, revealing its children. -/
def STree.expand : STree → Nat → STree
  | .node e c cs, i => .node e (if e.id = i then false else c) (cs.expand i)
def SForest.expand : SForest → Nat → SForest
  | .nil, _ => .nil
  | .cons t ts, i => .cons (t.expand i) (ts.expand i)
end

mutual
/-- Every node with identity `i` in the subtree is expanded or childless. -/
def STree.eol : STree → Nat → Bool
  | .node e c cs, i => (if e.id = i then (!c || cs.isNil) else true) && cs.eol i
def SForest.eol : SForest → Nat → Bool
  | .nil, _ => true
  | .cons t ts, i => t.eol i && ts.eol i
end

mutual
/-- Data-model invariant: line matches are leaves of the tree. -/
def STree.matchLeaves : STree → Bool
  | .node e _ cs => (if e.kind = .lineMatch then cs.isNil else true) && cs.matchLeaves
def SForest.matchLeaves : SForest → Bool
  | .nil => true
  | .cons t ts => t.matchLeaves && ts.matchLeaves
end

mutual
/-- Whether a node with identity `i` occurs in the subtree. -/
def STree.containsId : STree → Nat → Bool
  | .node e _ cs, i => e.id = i || cs.containsId i
def SForest.containsId : SForest → Nat → Bool
  | .nil, _ => false
  | .cons t ts, i => t.containsId i || ts.containsId i
end

/-- Whether some root of the forest has identity `i`. -/
def SForest.anyRootId : SForest → Nat → Bool
  | .nil, _ => false
  | .cons t ts, i => t.rootElem.id = i || ts.anyRootId i

mutual
/-- The renderable parent of the node with identity `i`, searching below the
roots (the caller handles the case of `i` being a root itself). -/
def STree.findParentAux : STree → Nat → Option RNode
  | .node e _ cs, i => if cs.anyRootId i then some e else cs.findParentAux i
def SForest.findParentAux : SForest → Nat → Option RNode
  | .nil, _ => none
  | .cons t ts, i => (t.findParentAux i).orElse (fun _ => ts.findParentAux i)
end

/-- The root subtree containing the node with identity `i`. -/
def SForest.rootContaining : SForest → Nat → Option STree
  | .nil, _ => none
  | .cons t ts, i => if t.containsId i then some t else ts.rootContaining i

mutual
/-- Collapse flag of the node with identity `i` (`viewer.isCollapsed`). -/
def STree.collapsedOf : STree → Nat → Option Bool
  | .node e c cs, i => if e.id = i then some c else cs.collapsedOf i
def SForest.collapsedOf : SForest → Nat → Option Bool
  | .nil, _ => none
  | .cons t ts, i => (t.collapsedOf i).orElse (fun _ => ts.collapsedOf i)
end

mutual
/-- The subtree rooted at the node with identity `i`. -/
def STree.findSubtree : STree → Nat → Option STree
  | .node e c cs, i => if e.id = i then some (.node e c cs) else cs.findSubtree i
def SForest.findSubtree : SForest → Nat → Option STree
  | .nil, _ => none
  | .cons t ts, i => (t.findSubtree i).orElse (fun _ => ts.findSubtree i)
end

mutual
/-- The renderable ancestors of the node with identity `i`, closest first. -/
def STree.pathTo : STree → Nat → List RNode → Option (List RNode)
  | .node e _ cs, i, acc => if e.id = i then some acc else cs.pathTo i (e :: acc)
def SForest.pathTo : SForest → Nat → List RNode → Option (List RNode)
  | .nil, _, _ => none
  | .cons t ts, i, acc => (t.pathTo i acc).orElse (fun _ => ts.pathTo i acc)
end

/-- Ancestors (renderable parents transitively) of node `i` in the forest. -/
def SForest.ancestors (f : SForest) (i : Nat) : List RNode :=
  (f.pathTo i []).getD []

/-- Total number of nodes of the forest. -/
def SForest.size (f : SForest) : Nat := f.pre.length

/-- Modelled from the spec: `navigator.current()` of the index-based tree
navigator, for a nonnegative index into the visible rows. -/
def navCur (f : SForest) (idx : Nat) : Option RNode := f.visible.get? idx

/-- Modelled from the spec: `navigator.current()` for a possibly negative
index (`previous()` below the first row yields `null`). -/
def navCurI (f : SForest) (idx : Int) : Option RNode :=
  if idx < 0 then none else f.visible.get? idx.toNat

/-- Modelled from the spec: the index at which `viewer.navigate(element)`
starts, i.e. the position of the element among the visible rows. -/
def visIdx (f : SForest) (e : RNode) : Nat :=
  f.visible.findIdx (fun x => decide (x = e))

/-- The scanning loop of `getNextElementAfterRemoved` for the `FolderMatch`
and `FileMatch` branches:
`while (!!navigator.next() && !(navigator.current() instanceof K)) { }`
followed by `return navigator.current()`. -/
def findNextKindLoop : Nat → SForest → Nat → (RNode → Bool) → Option RNode
  | 0, f, idx, _ => navCur f (idx + 1)
  | fuel + 1, f, idx, p =>
    match navCur f (idx + 1) with
    | none => none
    | some n => if p n then some n else findNextKindLoop fuel f (idx + 1) p

/-- The scanning loop of the `Match` branch of `getNextElementAfterRemoved`,
which expands every non-`Match` node it passes over:
`while (navigator.next() && !(navigator.current() instanceof Match)) {
viewer.expand(navigator.current()); }`. -/
def findNextMatchLoop : Nat → SForest → Nat → Option RNode × SForest
  | 0, f, idx => (navCur f (idx + 1), f)
  | fuel + 1, f, idx =>
    match navCur f (idx + 1) with
    | none => (none, f)
    | some n =>
      if n.kind = .lineMatch then (some n, f)
      else findNextMatchLoop fuel (f.expand n.id) (idx + 1)

/-- `AbstractSearchAndReplaceAction.getNextElementAfterRemoved`: scan forward
from the element for the next row of the same class, expanding passed-over
rows in the `Match` case; returns the possibly expanded viewer as well. -/
def getNextElementAfterRemoved (f : SForest) (element : RNode) :
    Option RNode × SForest :=
  let idx := visIdx f element
  if element.kind.isFolder then
    (findNextKindLoop f.visible.length f idx (fun x => x.kind.isFolder), f)
  else if element.kind = .fileMatch then
    (findNextKindLoop f.visible.length f idx (fun x => decide (x.kind = .fileMatch)), f)
  else
    findNextMatchLoop f.size f idx

/-- The type of `element.parent()` / `element.closestRoot` results:
a renderable row, the `SearchResult` root, or `null`. -/
inductive VParent where
  | nullParent
  | searchResult
  | node (n : RNode)
deriving DecidableEq

/-- Modelled from the spec: `element.parent()` — the renderable parent, or
the `SearchResult` root for top-level rows. -/
def parentOf (f : SForest) (e : RNode) : VParent :=
  if f.anyRootId e.id then .searchResult
  else
    match f.findParentAux e.id with
    | some p => .node p
    | none => .nullParent

/-- Modelled from the spec: `element.closestRoot` — the workspace-root folder
match at the root of the subtree containing the element, if any. -/
def closestRootOf (f : SForest) (e : RNode) : VParent :=
  match f.rootContaining e.id with
  | some t => if t.rootElem.kind.isFolder then .node t.rootElem else .nullParent
  | none => .nullParent

/-- `getVisibleParent` of `searchActions.ts`. -/
def getVisibleParent (f : SForest) (element : RNode) (isTreeViewVisible : Bool) : VParent :=
  if isTreeViewVisible = true ∨ element.kind = .lineMatch then parentOf f element
  else closestRootOf f element

/-- JS `===` between a visible parent and a navigator row (or `null`). -/
def vpEq : VParent → Option RNode → Bool
  | .node n, some m => decide (n = m)
  | .nullParent, none => true
  | _, _ => false

/-- The folder block of `getPreviousElementAfterRemoved`: when the element
is a `Match` and the previous element a `FolderMatch`, step the navigator
forward, expand the previous element and step back. -/
def prevFolderStep (element : RNode) :
    Int × Option RNode × SForest → Int × Option RNode × SForest
  | (idx, prev, f) =>
    match prev with
    | some q =>
      if element.kind = RMKind.lineMatch ∧ q.kind.isFolder = true then
        (idx + 1 - 1, navCurI (f.expand q.id) (idx + 1 - 1), f.expand q.id)
      else (idx, prev, f)
    | none => (idx, prev, f)

/-- The file block of `getPreviousElementAfterRemoved`: as the folder block
but for a `FileMatch` previous element (the source spells the two blocks
out separately to avoid an accidental loop). -/
def prevFileStep (element : RNode) :
    Int × Option RNode × SForest → Int × Option RNode × SForest
  | (idx, prev, f) =>
    match prev with
    | some q =>
      if element.kind = RMKind.lineMatch ∧ q.kind = RMKind.fileMatch then
        (idx + 1 - 1, navCurI (f.expand q.id) (idx + 1 - 1), f.expand q.id)
      else (idx, prev, f)
    | none => (idx, prev, f)

/-- `AbstractSearchAndReplaceAction.getPreviousElementAfterRemoved`:
step the navigator back from the element, skipping the element's visible
parent (and its file parent's parent), then expand a folder/file previous
element in the `Match` case; returns the possibly expanded viewer. -/
def getPreviousElementAfterRemoved (f : SForest) (element : RNode)
    (isTreeViewVisible : Bool) : Option RNode × SForest :=
  let start : Int := (visIdx f element : Nat)
  let idx1 : Int := start - 1
  let prev1 := navCurI f idx1
  let parent := getVisibleParent f element isTreeViewVisible
  let (idx2, prev2) :=
    if vpEq parent prev1 then (idx1 - 1, navCurI f (idx1 - 1)) else (idx1, prev1)
  let secondCheck : Bool :=
    match parent with
    | .node p =>
      if p.kind = .fileMatch then vpEq (getVisibleParent f p isTreeViewVisible) prev2
      else false
    | _ => false
  let (idx3, prev3) :=
    if secondCheck then (idx2 - 1, navCurI f (idx2 - 1)) else (idx2, prev2)
  let out := prevFileStep element (prevFolderStep element (idx3, prev3, f))
  (out.2.1, out.2.2)

/-- `AbstractSearchAndReplaceAction.getElementToFocusAfterRemoved`:
the next element after the removed one when that is non-null, otherwise the
previous one. -/
def getElementToFocusAfterRemoved (f : SForest) (elementToRemove : RNode)
    (isTreeViewVisible : Bool) : Option RNode × SForest :=
  match getNextElementAfterRemoved f elementToRemove with
  | (some n, f') => (some n, f')
  | (none, f') => getPreviousElementAfterRemoved f' elementToRemove isTreeViewVisible

/-- `getElementsToOperateOnInfo`: the non-null selection sorted by
`searchComparer` (a stable JS sort) under the configured sort order, if it
has more than one element and includes the current element; otherwise just
the current element. `mustReselect` records whether the selection included
the current element. `searchComparer` lives in the external `searchModel.ts`
and is taken as a parameter. -/
def getElementsToOperateOnInfo (searchComparer : RNode → RNode → Nat → Int)
    (selection : List (Option RNode)) (currElement : RNode) (sortOrder : Nat) :
    List RNode × Bool :=
  let elements := (selection.filterMap id).mergeSort
    (fun a b => decide (searchComparer a b sortOrder ≤ 0))
  let mustReselect := decide (currElement ∈ elements)
  if elements.length > 1 ∧ currElement ∈ elements then (elements, mustReselect)
  else ([currElement], mustReselect)

/-- Modelled from the spec: `arrayContainsElementOrParent` of the external
`searchModel.ts` — whether the array contains the element or one of its
renderable ancestors. -/
def arrayContainsElementOrParent (f : SForest) (e : RNode) (testArray : List RNode) : Bool :=
  decide (e ∈ testArray) || (f.ancestors e.id).any (fun a => decide (a ∈ testArray))

/-- `' '.repeat n`. -/
def spacesStr (n : Nat) : String := String.mk (List.replicate n ' ')

/-- `getFirstLinePrefix` of `matchToString`:
`startLineNumber ++ "," ++ startColumn`. -/
def firstLinePref (m : RNode) : String := Nat.repr m.line ++ "," ++ Nat.repr m.col

/-- `getOtherLinePrefix(i)` of `matchToString`: `startLineNumber + i`. -/
def otherLinePref (m : RNode) (i : Nat) : String := Nat.repr (m.line + i)

/-- The per-line numeric label of `matchToString`: first line shows
`line,column`, later line `i` shows `line + i`. -/
def linePref (m : RNode) (i : Nat) : String :=
  if i = 0 then firstLinePref m else otherLinePref m i

/-- `largestPrefixSize` of `matchToString`: the reduce over all preview
lines of the maximum label length. -/
def largestPrefSize (m : RNode) : Nat :=
  (List.range m.previewLines.length).foldl
    (fun largest i => max (linePref m i).length largest) 0

/-- The `formattedLines` computed by `matchToString`:
`indentStr ++ prefix ++ ": " ++ paddingStr ++ line` for each preview line. -/
def matchToStringLines (m : RNode) (indent : Nat) : List String :=
  m.previewLines.mapIdx (fun i line =>
    spacesStr indent ++ linePref m i ++ ": " ++
      spacesStr (largestPrefSize m - (linePref m i).length) ++ line)

/-- `matchToString`: the formatted lines joined with a newline. -/
def matchToString (m : RNode) (indent : Nat) : String :=
  String.intercalate "\n" (matchToStringLines m indent)

/-- `lineDelimiter`: CRLF on Windows, LF elsewhere. -/
def lineDelimiter (isWin : Bool) : String := if isWin then "\r\n" else "\n"

/-- `fileMatchToString` on the subtree of a `FileMatch`: its line matches
(`matches()`, the children of the file node) sorted by the external
`searchMatchComparer`, each rendered with indent 2, under the URI label. -/
def fileMatchToStringT (searchMatchComparer : RNode → RNode → Int)
    (uriLabel : Nat → String) (isWin : Bool) (t : STree) : String × Nat :=
  match t with
  | .node e _ cs =>
    let matchTextRows := (cs.rootElems.mergeSort
        (fun a b => decide (searchMatchComparer a b ≤ 0))).map
      (fun m => matchToString m 2)
    (uriLabel e.resource ++ lineDelimiter isWin ++
       String.intercalate (lineDelimiter isWin) matchTextRows,
     matchTextRows.length)

/-- `folderMatchToString` on the subtree of a `FolderMatch`: render every
child (`matches()`) sorted by `searchMatchComparer` via
`fileFolderMatchToString`, joining the texts with a blank line and summing
the counts. The fuel bounds the recursion depth and is always sufficient at
the subtree size. -/
def folderMatchToStringF (searchMatchComparer : RNode → RNode → Int)
    (uriLabel : Nat → String) (isWin : Bool) : Nat → STree → String × Nat
  | 0, _ => ("", 0)
  | fuel + 1, .node _ _ cs =>
    let sortedKids := cs.trees.mergeSort
      (fun a b => decide (searchMatchComparer a.rootElem b.rootElem ≤ 0))
    let results := sortedKids.map (fun k =>
      if k.rootElem.kind = RMKind.fileMatch then
        fileMatchToStringT searchMatchComparer uriLabel isWin k
      else folderMatchToStringF searchMatchComparer uriLabel isWin fuel k)
    (String.intercalate (lineDelimiter isWin ++ lineDelimiter isWin)
       (results.map Prod.fst),
     results.foldl (fun n r => n + r.snd) 0)

/-- `fileFolderMatchToString`: dispatch on the runtime class. -/
def fileFolderMatchToString (searchMatchComparer : RNode → RNode → Int)
    (uriLabel : Nat → String) (isWin : Bool) (t : STree) : String × Nat :=
  if t.rootElem.kind = RMKind.fileMatch then
    fileMatchToStringT searchMatchComparer uriLabel isWin t
  else folderMatchToStringF searchMatchComparer uriLabel isWin (t.pre.length) t

/-- Host-service calls the handlers make, recorded as a trace. -/
inductive HostEffect where
  | toggleCaseSensitive
  | clipboardWrite (text : String)
  | reveal (n : RNode)
  | setFocus (ns : List RNode)
  | setSelection (ns : List RNode)
  | domFocus
  | openReplacePreview (n : RNode)
  | viewletOpen (n : RNode)
deriving DecidableEq

/-- The slice of host state the embedded handlers read and write. `model`
is the abstract search-result model (`searchModel.ts` is external to the
excerpt); it is only ever touched through the supplied batch operations. -/
structure HostState (σ : Type) where
  viewPresent : Bool
  model : σ
  viewer : SForest
  selection : List (Option RNode)
  treeLayoutVisible : Bool
  activeEditorResource : Option Nat
  useReplacePreview : Bool
  sortOrder : Nat

/-- Modelled from the spec: the search-result model operations
`batchRemove` and `batchReplace` (their implementation is external). -/
structure ModelOps (σ : Type) where
  batchRemove : σ → List RNode → σ
  batchReplace : σ → List RNode → σ

/-- `toggleCaseSensitiveCommand`: `searchView?.toggleCaseSensitive()`. -/
def toggleCaseSensitiveCommand {σ : Type} (st : HostState σ) :
    HostState σ × List HostEffect :=
  if st.viewPresent then (st, [HostEffect.toggleCaseSensitive]) else (st, [])

/-- `getSelectedRow`: `searchView?.getControl().getSelection()[0]`. -/
def getSelectedRow {σ : Type} (st : HostState σ) : Option RNode :=
  if st.viewPresent then st.selection.head?.bind (fun x => x) else none

/-- `copyMatchCommand`: format the argument (or the selected row) and write
it to the clipboard; no-op when there is nothing to copy. An absent subtree
for a file/folder row renders as the empty string (unreachable: rows passed
in are rows of the viewer). -/
def copyMatchCommand {σ : Type} (searchMatchComparer : RNode → RNode → Int)
    (uriLabel : Nat → String) (isWin : Bool)
    (st : HostState σ) (matchArg : Option RNode) : List HostEffect :=
  let m := match matchArg with
    | some m => some m
    | none => getSelectedRow st
  match m with
  | none => []
  | some m =>
    let text : Option String :=
      if m.kind = RMKind.lineMatch then some (matchToString m 0)
      else if m.kind = RMKind.fileMatch then
        some (match st.viewer.findSubtree m.id with
          | some t => (fileMatchToStringT searchMatchComparer uriLabel isWin t).fst
          | none => "")
      else if m.kind.isFolder then
        some (match st.viewer.findSubtree m.id with
          | some t =>
            (folderMatchToStringF searchMatchComparer uriLabel isWin t.pre.length t).fst
          | none => "")
      else none
    match text with
    | some txt => if txt ≠ "" then [HostEffect.clipboardWrite txt] else []
    | none => []

/-- `copyPathCommand`: write the URI label of the argument (or of a selected
row that is a `FileMatch` or `FolderMatchWithResource`) to the clipboard;
no-op otherwise. -/
def copyPathCommand {σ : Type} (uriLabel : Nat → String)
    (st : HostState σ) (fileMatchArg : Option RNode) : List HostEffect :=
  let fm := match fileMatchArg with
    | some m => some m
    | none =>
      match getSelectedRow st with
      | some s =>
        if s.kind = RMKind.fileMatch ∨ s.kind = RMKind.folderWithResource then some s
        else none
      | none => none
  match fm with
  | none => []
  | some fm => [HostEffect.clipboardWrite (uriLabel fm.resource)]

/-- The reselection loop of `RemoveAction.run`: walk the elements to remove,
compute a focus target for the first one that yields a target outside the
removed set, and reveal/focus/select it. (The `!currentElement` and
`instanceof SearchResult` disjuncts of the source condition are constantly
false for renderable rows and are dropped.) -/
def removeReselectLoop (tv : Bool) (elementsToRemove : List RNode) :
    SForest → List RNode → SForest × List HostEffect
  | f, [] => (f, [])
  | f, c :: rest =>
    let step :=
      if arrayContainsElementOrParent f c elementsToRemove then
        getElementToFocusAfterRemoved f c tv
      else (none, f)
    match step with
    | (some nf, f') =>
      if arrayContainsElementOrParent f' nf elementsToRemove = false then
        (f', [HostEffect.reveal nf, HostEffect.setFocus [nf],
              HostEffect.setSelection [nf]])
      else removeReselectLoop tv elementsToRemove f' rest
    | (none, f') => removeReselectLoop tv elementsToRemove f' rest

/-- The body of `RemoveAction.run` past the empty-selection early return:
possibly re-focus, then remove the elements from the model via
`batchRemove`, then re-focus the DOM. -/
def removeActionRunGo {σ : Type} (ops : ModelOps σ) (st : HostState σ)
    (elementsToRemove : List RNode) (mustReselect : Bool) :
    HostState σ × List HostEffect :=
  let tv := if st.viewPresent then st.treeLayoutVisible else false
  let loopOut :=
    if mustReselect then removeReselectLoop tv elementsToRemove st.viewer elementsToRemove
    else (st.viewer, [])
  let st1 : HostState σ := { st with viewer := loopOut.fst }
  let st2 : HostState σ :=
    if st1.viewPresent then
      { st1 with model := ops.batchRemove st1.model elementsToRemove }
    else st1
  (st2, loopOut.snd ++ [HostEffect.domFocus])

/-- `RemoveAction.run`: compute the elements to operate on, and unless that
is empty, run the remove body. -/
def removeActionRun {σ : Type} (ops : ModelOps σ)
    (searchComparer : RNode → RNode → Nat → Int)
    (st : HostState σ) (element : RNode) : HostState σ × List HostEffect :=
  let opInfo := getElementsToOperateOnInfo searchComparer st.selection element st.sortOrder
  let elementsToRemove := opInfo.fst
  if elementsToRemove.isEmpty then (st, [])
  else removeActionRunGo ops st elementsToRemove opInfo.snd

/-- `element.parent().id()` in the model. -/
def parentIdOf (f : SForest) (e : RNode) : Option Nat :=
  match parentOf f e with
  | .node p => some p.id
  | _ => none

/-- `element.parent().resource` in the model. -/
def parentResourceOf (f : SForest) (e : RNode) : Option Nat :=
  match parentOf f e with
  | .node p => some p.resource
  | _ => none

/-- `a.range().getStartPosition().isBeforeOrEqual(b.range().getStartPosition())`. -/
def posLe (a b : RNode) : Prop :=
  a.line < b.line ∨ (a.line = b.line ∧ a.col ≤ b.col)

instance : DecidablePred (fun p : RNode × RNode => posLe p.1 p.2) :=
  fun _ => by unfold posLe; infer_instance

instance (a b : RNode) : Decidable (posLe a b) := by unfold posLe; infer_instance

/-- `viewer.isCollapsed(e)`. -/
def isCollapsedIn (f : SForest) (e : RNode) : Bool := (f.collapsedOf e.id).getD false

/-- The do-while loop of `ReplaceActionRunner.getElementToFocusAfterReplace`:
scan the whole view for the closest match at or after the replaced one in
the same file, or the first row of the next file. The navigator starts
before the first row; the fuel bounds the iteration count. -/
def focusAfterReplaceLoop (f : SForest) (currElement : RNode) :
    Nat → Int → Bool → Option RNode
  | 0, idx, _ => navCurI f idx
  | fuel + 1, idx, fileMatched =>
    let elementToFocus := navCurI f idx
    let nextStep := fun (fm : Bool) =>
      match navCurI f (idx + 1) with
      | some _ => focusAfterReplaceLoop f currElement fuel (idx + 1) fm
      | none => elementToFocus
    match elementToFocus with
    | some x =>
      if x.kind = RMKind.lineMatch then
        if parentIdOf f x = parentIdOf f currElement then
          if posLe currElement x then elementToFocus
          else nextStep true
        else if fileMatched then elementToFocus
        else nextStep fileMatched
      else
        if fileMatched ∧ isCollapsedIn f x = true then elementToFocus
        else nextStep fileMatched
    | none => nextStep fileMatched

/-- `ReplaceActionRunner.hasSameParent`. -/
def hasSameParent (f : SForest) (element : Option RNode) (currBottomElem : RNode) : Bool :=
  if currBottomElem.kind = RMKind.lineMatch then
    match element with
    | some m =>
      if m.kind = RMKind.lineMatch then
        decide (parentResourceOf f m = parentResourceOf f currBottomElem)
      else false
    | none => false
  else false

/-- `ReplaceActionRunner.hasToOpenFile`. -/
def hasToOpenFile (f : SForest) (activeEditorResource : Option Nat)
    (currBottomElem : RNode) : Bool :=
  if currBottomElem.kind = RMKind.lineMatch then
    match activeEditorResource with
    | some r => decide (some r = parentResourceOf f currBottomElem)
    | none => false
  else false

/-- `ReplaceActionRunner.getElementToShowReplacePreview`. -/
def getElementToShowReplacePreview (f : SForest) (elementToFocus : Option RNode)
    (currBottomElem : RNode) (tv : Bool) : Option RNode × SForest :=
  if hasSameParent f elementToFocus currBottomElem then (elementToFocus, f)
  else
    match elementToFocus with
    | none => (none, f)
    | some ef =>
      let out := getPreviousElementAfterRemoved f ef tv
      if hasSameParent out.snd out.fst currBottomElem then (out.fst, out.snd)
      else (none, out.snd)

/-- `ReplaceActionRunner.performReplace`: replace the operated-on elements
via `batchReplace`, then focus and open a replace preview or the file. -/
def performReplace {σ : Type} (ops : ModelOps σ)
    (searchComparer : RNode → RNode → Nat → Int) (viewletPresent : Bool)
    (st : HostState σ) (element : RNode) : HostState σ × List HostEffect :=
  let opInfo := getElementsToOperateOnInfo searchComparer st.selection element st.sortOrder
  let elementsToReplace := opInfo.fst
  let st1 : HostState σ :=
    if st.viewPresent then
      { st with model := ops.batchReplace st.model elementsToReplace }
    else st
  match elementsToReplace.getLast? with
  | none => (st1, [])
  | some currentBottom =>
    let tv := if st1.viewPresent then st1.treeLayoutVisible else false
    if currentBottom.kind = RMKind.lineMatch then
      let elementToFocus :=
        focusAfterReplaceLoop st1.viewer currentBottom (st1.viewer.size + 1) (-1) false
      let focusEffs := match elementToFocus with
        | some e => [HostEffect.setFocus [e], HostEffect.setSelection [e]]
        | none => []
      let previewOut :=
        getElementToShowReplacePreview st1.viewer elementToFocus currentBottom tv
      let st2 : HostState σ := { st1 with viewer := previewOut.snd }
      let openEffs :=
        if st2.useReplacePreview = false ∨ previewOut.fst = none ∨
            hasToOpenFile st2.viewer st2.activeEditorResource currentBottom = true then
          if viewletPresent then [HostEffect.viewletOpen currentBottom] else []
        else
          match previewOut.fst with
          | some p => [HostEffect.openReplacePreview p]
          | none => []
      (st2, focusEffs ++ [HostEffect.domFocus] ++ openEffs)
    else
      let focusOut := getElementToFocusAfterRemoved st1.viewer currentBottom tv
      let st2 : HostState σ := { st1 with viewer := focusOut.snd }
      let focusEffs := match focusOut.fst with
        | some e => [HostEffect.setFocus [e], HostEffect.setSelection [e]]
        | none => []
      let openEffs :=
        if element.kind = RMKind.fileMatch ∧ viewletPresent = true then
          [HostEffect.viewletOpen element]
        else []
      (st2, focusEffs ++ [HostEffect.domFocus] ++ openEffs)

/-- `IFindInFilesArgs`. -/
structure FindInFilesArgs where
  query : Option String
  replace : Option String
  preserveCase : Option Bool
  triggerSearch : Option Bool
  filesToInclude : Option String
  filesToExclude : Option String
  isRegex : Option Bool
  isCaseSensitive : Option Bool
  matchWholeWord : Option Bool
  useExcludeSettingsAndIgnoreFiles : Option Bool
  onlyOpenEditors : Option Bool
deriving DecidableEq

/-- The `location` field of `OpenSearchEditorArgs`. -/
inductive EditorLocation where
  | newLocation
  | reuse
deriving DecidableEq

/-- The arguments `FindInFilesCommand` forwards to the open-search-editor
command. -/
structure OpenSearchEditorArgs where
  location : EditorLocation
  query : Option String
  filesToInclude : Option String
  filesToExclude : Option String
  matchWholeWord : Option Bool
  isCaseSensitive : Option Bool
  isRegexp : Option Bool
  useExcludeSettingsAndIgnoreFiles : Option Bool
  onlyOpenEditors : Option Bool
  showIncludesExcludes : Bool
deriving DecidableEq

/-- The configured `search.mode`. -/
inductive SearchMode where
  | view
  | reuseEditor
  | newEditor
deriving DecidableEq

/-- JS truthiness of an optional string (`undefined` and `""` are falsy). -/
def truthyStr : Option String → Bool
  | some s => decide (s ≠ "")
  | none => false

/-- JS truthiness of an optional boolean (`undefined` is falsy). -/
def truthyOptBool : Option Bool → Bool
  | some b => b
  | none => false

/-- `convertArgs` of `FindInFilesCommand`: note the source computes
`showIncludesExcludes` from `filesToExclude` twice and from
`useExcludeSettingsAndIgnoreFiles`, never from `filesToInclude`. -/
def convertArgs (mode : SearchMode) (args : FindInFilesArgs) : OpenSearchEditorArgs :=
  { location := if mode = SearchMode.newEditor then EditorLocation.newLocation
                else EditorLocation.reuse
    query := args.query
    filesToInclude := args.filesToInclude
    filesToExclude := args.filesToExclude
    matchWholeWord := args.matchWholeWord
    isCaseSensitive := args.isCaseSensitive
    isRegexp := args.isRegex
    useExcludeSettingsAndIgnoreFiles := args.useExcludeSettingsAndIgnoreFiles
    onlyOpenEditors := args.onlyOpenEditors
    showIncludesExcludes :=
      truthyStr args.filesToExclude || truthyStr args.filesToExclude ||
        !truthyOptBool args.useExcludeSettingsAndIgnoreFiles }

/-- The observable outcome of `FindInFilesCommand`: either the search-view
flow is started, or the open-search-editor command is executed with the
converted arguments. -/
inductive FindCmdEffect where
  | openViewBranch (args : FindInFilesArgs)
  | execOpenNewEditor (a : OpenSearchEditorArgs)
deriving DecidableEq

/-- `FindInFilesCommand`: dispatch on the configured search mode. -/
def FindInFilesCommand (mode : SearchMode) (args : FindInFilesArgs) : List FindCmdEffect :=
  if mode = SearchMode.view then [FindCmdEffect.openViewBranch args]
  else [FindCmdEffect.execOpenNewEditor (convertArgs mode args)]

/-- The suffix of `l` strictly after the first occurrence of `e`. -/
def afterElem (l : List RNode) (e : RNode) : List RNode :=
  (l.dropWhile (fun x => decide (x ≠ e))).drop 1

/-- A concrete row used to evaluate the theorems on explicit inputs. -/
def wNode (i : Nat) (k : RMKind) : RNode :=
  { id := i, kind := k, resource := i, line := 1, col := i, previewLines := ["p"] }

def wM1 : RNode := wNode 1 RMKind.lineMatch

def wM2 : RNode := wNode 2 RMKind.lineMatch

def wFileN : RNode := wNode 0 RMKind.fileMatch

/-- A concrete viewer: one expanded file with two line matches. -/
def wForest : SForest :=
  SForest.cons
    (STree.node wFileN false
      (SForest.cons (STree.node wM1 false SForest.nil)
        (SForest.cons (STree.node wM2 false SForest.nil) SForest.nil)))
    SForest.nil

/-- A concrete host state with no active search view and empty selection. -/
def wHost : HostState Unit :=
  { viewPresent := false
    model := ()
    viewer := wForest
    selection := []
    treeLayoutVisible := false
    activeEditorResource := none
    useReplacePreview := false
    sortOrder := 0 }

/-- Concrete find-in-files arguments used to evaluate the theorems. -/
def wFindArgs : FindInFilesArgs :=
  { query := none
    replace := none
    preserveCase := none
    triggerSearch := none
    filesToInclude := none
    filesToExclude := some "x"
    isRegex := none
    isCaseSensitive := none
    matchWholeWord := none
    useExcludeSettingsAndIgnoreFiles := some true
    onlyOpenEditors := none }

end SearchActions

namespace WebMain

/-- The `Menu` enum of the web API. -/
inductive Menu where
  | commandPalette
  | statusBarWindowIndicatorMenu
deriving DecidableEq

/-- The host `MenuId`s `asMenuId` maps to. -/
inductive MenuId where
  | commandPalette
  | statusBarWindowIndicatorMenu
deriving DecidableEq

/-- `asMenuId`. -/
def asMenuId : Menu → MenuId
  | .commandPalette => MenuId.commandPalette
  | .statusBarWindowIndicatorMenu => MenuId.statusBarWindowIndicatorMenu

/-- `command.menu` may be a single menu or an array of menus. -/
inductive MenuSpec where
  | one (m : Menu)
  | many (ms : List Menu)
deriving DecidableEq

/-- `asArray(command.menu ?? Menu.CommandPalette)`. -/
def menusOf : Option MenuSpec → List Menu
  | none => [Menu.commandPalette]
  | some (.one m) => [m]
  | some (.many ms) => ms

/-- The value a registered command handler returns: either the wrapped user
handler's result, or the tarball proxy endpoints dictionary. -/
inductive CmdResult (ρ : Type) where
  | value (v : ρ)
  | endpoints (e : List (String × String))

/-- A command passed in `options.commands`. Argument and result types of
the untyped JS handlers are abstract. -/
structure WebCommand (α ρ : Type) where
  id : String
  handler : List α → ρ
  label : Option String
  menu : Option MenuSpec

/-- The fields of `IWorkbenchConstructionOptions` that `create` reads. -/
structure WorkbenchOptions (α ρ : Type) where
  commands : Option (List (WebCommand α ρ))
  tarballProxyEndpoints : Option (List (String × String))

/-- A menu item appended to the `MenuRegistry`. -/
structure MenuItem where
  menuId : MenuId
  commandId : String
  title : String
deriving DecidableEq

/-- The global mutable state `create` touches: the module-level `created`
flag, the `CommandsRegistry`, the `MenuRegistry`, and whether the browser
workbench main was started. `χ` is the abstract services-accessor type. -/
structure CreateState (χ α ρ : Type) where
  created : Bool
  commands : List (String × (χ → List α → CmdResult ρ))
  menuItems : List MenuItem
  workbenchStarted : Bool

/-- The `CommandsRegistry.registerCommand` wrapper `create` installs for a
command: it forwards only the arguments, not the services accessor. -/
def regOf (χ : Type) {α ρ : Type} (c : WebCommand α ρ) : String × (χ → List α → CmdResult ρ) :=
  (c.id, fun _accessor args => CmdResult.value (c.handler args))

/-- The menu items `create` appends for one command: one per menu in
`asArray(command.menu ?? Menu.CommandPalette)` when the label is truthy. -/
def menuItemsOf {α ρ : Type} (c : WebCommand α ρ) : List MenuItem :=
  if SearchActions.truthyStr c.label then
    (menusOf c.menu).map (fun m =>
      { menuId := asMenuId m, commandId := c.id, title := c.label.getD "" })
  else []

/-- The `for (const command of options.commands)` registration loop. -/
def registerLoop {χ α ρ : Type} (st : CreateState χ α ρ) :
    List (WebCommand α ρ) → CreateState χ α ρ
  | [] => st
  | c :: rest =>
    registerLoop
      { st with
        commands := st.commands ++ [regOf χ c]
        menuItems := st.menuItems ++ menuItemsOf c } rest

/-- The handler registered for `_workbench.getTarballProxyEndpoints`. -/
def tarballReg (χ : Type) {α ρ : Type} (opts : WorkbenchOptions α ρ) :
    String × (χ → List α → CmdResult ρ) :=
  ("_workbench.getTarballProxyEndpoints",
   fun _accessor _args => CmdResult.endpoints (opts.tarballProxyEndpoints.getD []))

/-- `create(domElement, options)`: throw if already created; otherwise set
the flag, register the commands and their menu items, register the tarball
endpoints command, and start the browser workbench. The `Option String` of
the result carries the thrown error message, if any. -/
def create {χ α ρ : Type} (st : CreateState χ α ρ) (opts : WorkbenchOptions α ρ) :
    CreateState χ α ρ × Option String :=
  if st.created then
    (st, some "Unable to create the VSCode workbench more than once.")
  else
    let st1 : CreateState χ α ρ := { st with created := true }
    let st2 := match opts.commands with
      | some cs => registerLoop st1 cs
      | none => st1
    let st3 : CreateState χ α ρ := { st2 with commands := st2.commands ++ [tarballReg χ opts] }
    ({ st3 with workbenchStarted := true }, none)

/-- A concrete created state (a previous `create` already ran). -/
def wCreateSt : CreateState Unit Unit Unit :=
  { created := true, commands := [], menuItems := [], workbenchStarted := false }

/-- A concrete fresh state (no previous `create`). -/
def wFreshSt : CreateState Unit Unit Unit :=
  { created := false, commands := [], menuItems := [], workbenchStarted := false }

/-- Concrete construction options with no commands. -/
def wOpts : WorkbenchOptions Unit Unit :=
  { commands := none, tarballProxyEndpoints := none }

/-- A concrete labelled command. -/
def wCmd : WebCommand Unit Unit :=
  { id := "w.cmd", handler := fun _ => (), label := some "W", menu := none }

/-- Concrete construction options carrying one command. -/
def wOptsCmds : WorkbenchOptions Unit Unit :=
  { commands := some [wCmd], tarballProxyEndpoints := none }

end WebMain

namespace WebMain

/-- Closed form of the registration loop: it appends one registry entry and
one menu-item batch per command. -/
theorem registerLoop_spec {χ α ρ : Type} (cs : List (WebCommand α ρ))
    (st : CreateState χ α ρ) :
    registerLoop st cs =
      { st with
        commands := st.commands ++ cs.map (fun c => regOf χ c)
        menuItems := st.menuItems ++ cs.flatMap (fun c => menuItemsOf c) } := by
  induction cs generalizing st with
  | nil => simp [registerLoop]
  | cons c rest ih => simp [registerLoop, ih]

/-- C1: a call to `create` after a previous call set the module-level
`created` flag throws `Unable to create the VSCode workbench more than
once.` and leaves the registries and the workbench untouched; a call with
the flag clear does not throw on this path and sets the flag. -/
theorem create_duplicate_guard {χ α ρ : Type} (st : CreateState χ α ρ)
    (opts : WorkbenchOptions α ρ) :
    (st.created = true →
      create st opts =
        (st, some "Unable to create the VSCode workbench more than once.")) ∧
    (st.created = false →
      (create st opts).snd = none ∧ (create st opts).fst.created = true) := by
  constructor
  · intro h
    simp [create, h]
  · intro h
    cases hc : opts.commands with
    | none => simp [create, h, hc]
    | some cs => simp [create, h, hc, registerLoop_spec]

/-- Witness for C1: the duplicate-creation error at a concrete state. -/
theorem create_duplicate_guard_witness :
    create wCreateSt wOpts =
      (wCreateSt, some "Unable to create the VSCode workbench more than once.") :=
  (create_duplicate_guard wCreateSt wOpts).1 rfl

/-- C4: with the flag clear and a commands array supplied, `create` appends
to the commands registry one entry per command — its id, with a handler
that forwards only the arguments, never the services accessor, to the
command's handler — plus the tarball-endpoints command, and appends one
menu item per specified menu (command palette by default) exactly for the
commands with a truthy label. -/
theorem create_registers_commands_and_menus {χ α ρ : Type}
    (st : CreateState χ α ρ) (opts : WorkbenchOptions α ρ)
    (cs : List (WebCommand α ρ))
    (hflag : st.created = false) (hcmds : opts.commands = some cs) :
    (create st opts).fst.commands
        = st.commands ++ cs.map (fun c => regOf χ c) ++ [tarballReg χ opts] ∧
    (∀ c : WebCommand α ρ, (regOf χ c).fst = c.id) ∧
    (∀ c : WebCommand α ρ, ∀ acc acc2 : χ, ∀ args : List α,
      (regOf χ c).snd acc args = CmdResult.value (c.handler args) ∧
      (regOf χ c).snd acc args = (regOf χ c).snd acc2 args) ∧
    (create st opts).fst.menuItems
        = st.menuItems ++ cs.flatMap (fun c => menuItemsOf c) ∧
    (∀ c : WebCommand α ρ,
      (menuItemsOf c = [] ↔
        (SearchActions.truthyStr c.label = false ∨ menusOf c.menu = [])) ∧
      ∀ it ∈ menuItemsOf c, it.commandId = c.id ∧
        ∃ m ∈ menusOf c.menu, it.menuId = asMenuId m ∧ it.title = c.label.getD "") := by
  refine ⟨?_, fun c => rfl, fun c acc acc2 args => ⟨rfl, rfl⟩, ?_, ?_⟩
  · simp [create, hflag, hcmds, registerLoop_spec]
  · simp [create, hflag, hcmds, registerLoop_spec]
  · intro c
    constructor
    · unfold menuItemsOf
      by_cases h : SearchActions.truthyStr c.label = true
      · simp [h]
      · simp [Bool.not_eq_true] at h
        simp [h]
    · intro it hit
      unfold menuItemsOf at hit
      by_cases h : SearchActions.truthyStr c.label = true
      · simp [h] at hit
        obtain ⟨m, hm, rfl⟩ := hit
        exact ⟨rfl, m, hm, rfl, rfl⟩
      · simp [Bool.not_eq_true] at h
        simp [h] at hit

/-- Witness for C4: the registry delta at a concrete one-command options. -/
theorem create_registers_commands_and_menus_witness :
    (create wFreshSt wOptsCmds).fst.commands
      = wFreshSt.commands ++ [wCmd].map (fun c => regOf Unit c)
          ++ [tarballReg Unit wOptsCmds] :=
  (create_registers_commands_and_menus wFreshSt wOptsCmds [wCmd] rfl rfl).1

end WebMain

namespace SearchActions

/-- C9: when the configured search mode is not `view`, `FindInFilesCommand`
executes the open-search-editor command, and the forwarded
`showIncludesExcludes` equals
`!!(filesToExclude || !useExcludeSettingsAndIgnoreFiles)` — independent of
`filesToInclude`: varying only `filesToInclude` yields the same flag. -/
theorem findInFiles_showIncludesExcludes_independent
    (mode : SearchMode) (args : FindInFilesArgs) (v1 v2 : Option String)
    (h : mode ≠ SearchMode.view) :
    FindInFilesCommand mode args
        = [FindCmdEffect.execOpenNewEditor (convertArgs mode args)] ∧
    (convertArgs mode args).showIncludesExcludes
        = (truthyStr args.filesToExclude ||
            !truthyOptBool args.useExcludeSettingsAndIgnoreFiles) ∧
    (convertArgs mode { args with filesToInclude := v1 }).showIncludesExcludes
        = (convertArgs mode { args with filesToInclude := v2 }).showIncludesExcludes := by
  refine ⟨?_, ?_, rfl⟩
  · simp [FindInFilesCommand, h]
  · simp [convertArgs]

/-- Witness for C9 at concrete arguments with an exclude pattern. -/
theorem findInFiles_showIncludesExcludes_independent_witness :
    (convertArgs SearchMode.newEditor wFindArgs).showIncludesExcludes
      = (truthyStr wFindArgs.filesToExclude ||
          !truthyOptBool wFindArgs.useExcludeSettingsAndIgnoreFiles) :=
  (findInFiles_showIncludesExcludes_independent SearchMode.newEditor wFindArgs none none
    (by decide)).2.1

end SearchActions

namespace SearchActions

/-- C2: the element to focus after removing an element is the result of
`getNextElementAfterRemoved` when that is non-null, and otherwise the
result of `getPreviousElementAfterRemoved` on the resulting viewer. -/
theorem getElementToFocusAfterRemoved_next_else_previous
    (f : SForest) (e : RNode) (tv : Bool) :
    (∀ n f1, getNextElementAfterRemoved f e = (some n, f1) →
      getElementToFocusAfterRemoved f e tv = (some n, f1)) ∧
    (∀ f1, getNextElementAfterRemoved f e = (none, f1) →
      getElementToFocusAfterRemoved f e tv
        = getPreviousElementAfterRemoved f1 e tv) := by
  constructor
  · intro n f1 h
    simp [getElementToFocusAfterRemoved, h]
  · intro f1 h
    simp [getElementToFocusAfterRemoved, h]

/-- Witness for C2: removing the first of two matches refocuses the next. -/
theorem getElementToFocusAfterRemoved_next_else_previous_witness :
    getElementToFocusAfterRemoved wForest wM1 true = (some wM2, wForest) :=
  (getElementToFocusAfterRemoved_next_else_previous wForest wM1 true).1 wM2 wForest rfl

/-- C5: absence of the optional element makes the handlers silent no-ops:
with no active search view `toggleCaseSensitiveCommand` changes nothing and
calls nothing; with no argument and no selected row `copyMatchCommand`
writes nothing to the clipboard; with no argument and no suitable (file or
folder-with-resource) selected row `copyPathCommand` writes nothing. -/
theorem optional_element_noops {σ : Type} (cmp : RNode → RNode → Int)
    (uriLabel : Nat → String) (isWin : Bool) (st : HostState σ) :
    (st.viewPresent = false → toggleCaseSensitiveCommand st = (st, [])) ∧
    (getSelectedRow st = none → copyMatchCommand cmp uriLabel isWin st none = []) ∧
    ((∀ s, getSelectedRow st = some s →
        s.kind ≠ RMKind.fileMatch ∧ s.kind ≠ RMKind.folderWithResource) →
      copyPathCommand uriLabel st none = []) := by
  refine ⟨?_, ?_, ?_⟩
  · intro h
    simp [toggleCaseSensitiveCommand, h]
  · intro h
    simp [copyMatchCommand, h]
  · intro h
    unfold copyPathCommand
    cases hs : getSelectedRow st with
    | none => simp
    | some s =>
      have hk := h s hs
      simp [hk.1, hk.2]

/-- Witness for C5: all three handlers no-op on the viewless host state. -/
theorem optional_element_noops_witness :
    toggleCaseSensitiveCommand wHost = (wHost, []) ∧
    copyMatchCommand (fun _ _ => 0) (fun _ => "") false wHost none = [] ∧
    copyPathCommand (fun _ => "") wHost none = [] := by
  refine ⟨?_, ?_, ?_⟩
  · exact (optional_element_noops (fun _ _ => 0) (fun _ => "") false wHost).1 rfl
  · exact (optional_element_noops (fun _ _ => 0) (fun _ => "") false wHost).2.1 rfl
  · exact (optional_element_noops (fun _ _ => 0) (fun _ => "") false wHost).2.2
      (fun s hs => Option.noConfusion hs)

/-- The seed is a lower bound of the running maximum. -/
theorem le_foldl_max (g : Nat → Nat) (l : List Nat) (a : Nat) :
    a ≤ l.foldl (fun acc j => max (g j) acc) a := by
  induction l generalizing a with
  | nil => exact le_refl a
  | cons x xs ih => exact le_trans (le_max_right (g x) a) (ih (max (g x) a))

/-- Every listed value is below the running maximum. -/
theorem mem_le_foldl_max (g : Nat → Nat) (l : List Nat) (i : Nat) (hi : i ∈ l) :
    ∀ a, g i ≤ l.foldl (fun acc j => max (g j) acc) a := by
  induction l with
  | nil => cases hi
  | cons x xs ih =>
    intro a
    rcases List.mem_cons.mp hi with h | h
    · subst h
      exact le_trans (le_max_left (g i) a) (le_foldl_max g xs (max (g i) a))
    · exact ih h (max (g x) a)

/-- Every per-line label is at most the largest label size. -/
theorem linePref_le_largest (m : RNode) (i : Nat) (hi : i < m.previewLines.length) :
    (linePref m i).length ≤ largestPrefSize m :=
  mem_le_foldl_max (fun j => (linePref m j).length) (List.range m.previewLines.length)
    i (List.mem_range.mpr hi) 0

/-- Length of a run of spaces. -/
theorem spacesStr_length (n : Nat) : (spacesStr n).length = n := by
  simp [spacesStr]

/-- C10: for a match with at least one preview line, `matchToString` yields
one output line per preview line, of the form indent spaces, label
(`line,column` on the first line, `line + i` on line `i > 0`), `": "`,
padding spaces, then the preview line; the padding pads every label to the
width of the largest one, so the preview text starts at column
`indent + largest + 2` on every line. -/
theorem matchToString_layout (m : RNode) (indent : Nat)
    (hne : m.previewLines ≠ []) :
    matchToString m indent = String.intercalate "\n" (matchToStringLines m indent) ∧
    (matchToStringLines m indent).length = m.previewLines.length ∧
    ∀ i, i < m.previewLines.length →
      (matchToStringLines m indent).get? i
        = (m.previewLines.get? i).map (fun line =>
            spacesStr indent ++ linePref m i ++ ": " ++
              spacesStr (largestPrefSize m - (linePref m i).length) ++ line) ∧
      (linePref m i).length + (largestPrefSize m - (linePref m i).length)
        = largestPrefSize m ∧
      (spacesStr indent ++ linePref m i ++ ": " ++
          spacesStr (largestPrefSize m - (linePref m i).length)).length
        = indent + largestPrefSize m + 2 := by
  refine ⟨rfl, List.length_mapIdx, ?_⟩
  intro i hi
  have hb : (linePref m i).length ≤ largestPrefSize m := linePref_le_largest m i hi
  refine ⟨?_, by omega, ?_⟩
  · unfold matchToStringLines
    rw [List.get?_eq_getElem?, List.get?_eq_getElem?, List.getElem?_mapIdx]
  · have h2 : (": " : String).length = 2 := by decide
    simp only [String.length_append, spacesStr_length, h2]
    omega

/-- Witness for C10 at a concrete one-line match. -/
theorem matchToString_layout_witness :
    (matchToStringLines wM1 0).length = wM1.previewLines.length :=
  (matchToString_layout wM1 0 (by decide)).2.1

/-- C8: `getElementsToOperateOnInfo` returns the whole filtered selection,
sorted by `searchComparer` under the configured sort order, exactly when it
has more than one element and contains the current element — in every other
case `[currElement]` — and `mustReselect` holds iff the filtered selection
contains the current element. -/
theorem getElementsToOperateOnInfo_spec (searchComparer : RNode → RNode → Nat → Int)
    (selection : List (Option RNode)) (curr : RNode) (sortOrder : Nat)
    (htrans : ∀ a b c : RNode, searchComparer a b sortOrder ≤ 0 →
      searchComparer b c sortOrder ≤ 0 → searchComparer a c sortOrder ≤ 0)
    (htotal : ∀ a b : RNode,
      searchComparer a b sortOrder ≤ 0 ∨ searchComparer b a sortOrder ≤ 0) :
    ((getElementsToOperateOnInfo searchComparer selection curr sortOrder).snd = true ↔
      curr ∈ selection.filterMap id) ∧
    (((selection.filterMap id).length > 1 ∧ curr ∈ selection.filterMap id) →
      ((getElementsToOperateOnInfo searchComparer selection curr sortOrder).fst.Perm
          (selection.filterMap id) ∧
        List.Pairwise (fun a b => searchComparer a b sortOrder ≤ 0)
          (getElementsToOperateOnInfo searchComparer selection curr sortOrder).fst)) ∧
    (¬ ((selection.filterMap id).length > 1 ∧ curr ∈ selection.filterMap id) →
      (getElementsToOperateOnInfo searchComparer selection curr sortOrder).fst
        = [curr]) := by
  have hperm := List.mergeSort_perm (selection.filterMap id)
    (fun a b => decide (searchComparer a b sortOrder ≤ 0))
  have hcondiff :
      (((selection.filterMap id).mergeSort
          (fun a b => decide (searchComparer a b sortOrder ≤ 0))).length > 1 ∧
        curr ∈ (selection.filterMap id).mergeSort
          (fun a b => decide (searchComparer a b sortOrder ≤ 0))) ↔
      ((selection.filterMap id).length > 1 ∧ curr ∈ selection.filterMap id) := by
    rw [hperm.length_eq, hperm.mem_iff]
  refine ⟨?_, ?_, ?_⟩
  · simp only [getElementsToOperateOnInfo]
    split
    · simp [hperm.mem_iff]
    · simp [hperm.mem_iff]
  · intro hc
    have hc2 := hcondiff.mpr hc
    constructor
    · simp only [getElementsToOperateOnInfo]
      rw [if_pos hc2]
      exact hperm
    · simp only [getElementsToOperateOnInfo]
      rw [if_pos hc2]
      have hsorted := @List.sorted_mergeSort RNode
        (fun a b => decide (searchComparer a b sortOrder ≤ 0))
        (fun a b c h1 h2 => by
          simp only [decide_eq_true_eq] at h1 h2 ⊢
          exact htrans a b c h1 h2)
        (fun a b => by
          simp only [Bool.or_eq_true, decide_eq_true_eq]
          exact htotal a b)
        (selection.filterMap id)
      exact hsorted.imp (fun h => by simpa using h)
  · intro hc
    have hc2 := fun h => hc (hcondiff.mp h)
    simp only [getElementsToOperateOnInfo]
    rw [if_neg hc2]

/-- Witness for C8 at a concrete two-element selection. -/
theorem getElementsToOperateOnInfo_spec_witness :
    ((getElementsToOperateOnInfo (fun a b _ => (a.id : Int) - b.id)
        [some wM2, some wM1] wM1 0).snd = true ↔
      wM1 ∈ ([some wM2, some wM1] : List (Option RNode)).filterMap id) :=
  (getElementsToOperateOnInfo_spec (fun a b _ => (a.id : Int) - b.id)
    [some wM2, some wM1] wM1 0
    (by intro a b c h1 h2; dsimp only at h1 h2 ⊢; omega)
    (by intro a b; dsimp only; omega)).1

end SearchActions

namespace SearchActions

mutual
/-- Expanding never changes the nodes of a subtree, only collapse flags. -/
theorem STree.pre_expandT (t : STree) (i : Nat) : (t.expand i).pre = t.pre := by
  cases t with
  | node e c cs => simp [STree.expand, STree.pre, SForest.pre_expandF cs i]
/-- Expanding never changes the nodes of a forest, only collapse flags. -/
theorem SForest.pre_expandF (ts : SForest) (i : Nat) : (ts.expand i).pre = ts.pre := by
  cases ts with
  | nil => rfl
  | cons t ts' =>
    simp [SForest.expand, SForest.pre, STree.pre_expandT t i, SForest.pre_expandF ts' i]
end

/-- The match-scanning loop only expands, so the nodes are preserved. -/
theorem findNextMatchLoop_pre (fuel : Nat) : ∀ (f : SForest) (idx : Nat),
    (findNextMatchLoop fuel f idx).snd.pre = f.pre := by
  induction fuel with
  | zero => intro f idx; rfl
  | succ fuel ih =>
    intro f idx
    unfold findNextMatchLoop
    cases h : navCur f (idx + 1) with
    | none => rfl
    | some n =>
      simp only
      split
      · rfl
      · rw [ih, SForest.pre_expandF]

/-- `getNextElementAfterRemoved` preserves the tree's nodes. -/
theorem getNextElementAfterRemoved_pre (f : SForest) (e : RNode) :
    (getNextElementAfterRemoved f e).snd.pre = f.pre := by
  unfold getNextElementAfterRemoved
  split
  · rfl
  · split
    · rfl
    · exact findNextMatchLoop_pre _ _ _

/-- The folder block preserves the tree's nodes. -/
theorem prevFolderStep_pre (e : RNode) (s : Int × Option RNode × SForest) :
    (prevFolderStep e s).2.2.pre = s.2.2.pre := by
  obtain ⟨idx, prev, f⟩ := s
  unfold prevFolderStep
  cases prev with
  | none => rfl
  | some q =>
    simp only
    split
    · exact SForest.pre_expandF f q.id
    · rfl

/-- The file block preserves the tree's nodes. -/
theorem prevFileStep_pre (e : RNode) (s : Int × Option RNode × SForest) :
    (prevFileStep e s).2.2.pre = s.2.2.pre := by
  obtain ⟨idx, prev, f⟩ := s
  unfold prevFileStep
  cases prev with
  | none => rfl
  | some q =>
    simp only
    split
    · exact SForest.pre_expandF f q.id
    · rfl

/-- `getPreviousElementAfterRemoved` preserves the tree's nodes. -/
theorem getPreviousElementAfterRemoved_pre (f : SForest) (e : RNode) (tv : Bool) :
    (getPreviousElementAfterRemoved f e tv).snd.pre = f.pre := by
  unfold getPreviousElementAfterRemoved
  dsimp only
  rw [prevFileStep_pre, prevFolderStep_pre]

/-- `getElementToFocusAfterRemoved` preserves the tree's nodes. -/
theorem getElementToFocusAfterRemoved_pre (f : SForest) (e : RNode) (tv : Bool) :
    (getElementToFocusAfterRemoved f e tv).snd.pre = f.pre := by
  unfold getElementToFocusAfterRemoved
  have hnext := getNextElementAfterRemoved_pre f e
  cases h : getNextElementAfterRemoved f e with
  | mk r f1 =>
    rw [h] at hnext
    cases r with
    | some n => simpa using hnext
    | none =>
      simp only
      rw [getPreviousElementAfterRemoved_pre]
      exact hnext

/-- The reselection loop preserves the tree's nodes. -/
theorem removeReselectLoop_pre (tv : Bool) (elems : List RNode) :
    ∀ (l : List RNode) (f : SForest),
      (removeReselectLoop tv elems f l).fst.pre = f.pre := by
  intro l
  induction l with
  | nil => intro f; rfl
  | cons c rest ih =>
    intro f
    unfold removeReselectLoop
    have hmain : ∀ (p : Option RNode × SForest), p.snd.pre = f.pre →
        (match p with
          | (some nf, f') =>
            if arrayContainsElementOrParent f' nf elems = false then
              (f', [HostEffect.reveal nf, HostEffect.setFocus [nf],
                    HostEffect.setSelection [nf]])
            else removeReselectLoop tv elems f' rest
          | (none, f') => removeReselectLoop tv elems f' rest).fst.pre = f.pre := by
      intro p hp
      obtain ⟨r, f1⟩ := p
      cases r with
      | some nf =>
        simp only
        split
        · exact hp
        · rw [ih f1]
          exact hp
      | none =>
        simp only
        rw [ih f1]
        exact hp
    split
    · exact hmain _ (getElementToFocusAfterRemoved_pre f c tv)
    · exact hmain (none, f) rfl

/-- `getElementToShowReplacePreview` preserves the tree's nodes. -/
theorem getElementToShowReplacePreview_pre (f : SForest) (ef : Option RNode)
    (cb : RNode) (tv : Bool) :
    (getElementToShowReplacePreview f ef cb tv).snd.pre = f.pre := by
  unfold getElementToShowReplacePreview
  split
  · rfl
  · cases ef with
    | none => rfl
    | some e =>
      simp only
      split
      · exact getPreviousElementAfterRemoved_pre f e tv
      · exact getPreviousElementAfterRemoved_pre f e tv

/-- The remove body touches the model only through `batchRemove`. -/
theorem removeActionRunGo_model {σ : Type} (ops : ModelOps σ) (st : HostState σ)
    (elems : List RNode) (mr : Bool) :
    (removeActionRunGo ops st elems mr).fst.model
      = if st.viewPresent = true then ops.batchRemove st.model elems
        else st.model := by
  unfold removeActionRunGo
  by_cases hv : st.viewPresent = true
  · simp [hv]
  · simp [hv]

/-- The remove body preserves the tree's nodes. -/
theorem removeActionRunGo_viewer {σ : Type} (ops : ModelOps σ) (st : HostState σ)
    (elems : List RNode) (mr : Bool) :
    (removeActionRunGo ops st elems mr).fst.viewer.pre = st.viewer.pre := by
  unfold removeActionRunGo
  by_cases hmr : mr = true
  · by_cases hv : st.viewPresent = true
    · simp [hmr, hv, removeReselectLoop_pre]
    · simp [hmr, hv, removeReselectLoop_pre]
  · by_cases hv : st.viewPresent = true
    · simp [hmr, hv]
    · simp [hmr, hv]

/-- `performReplace` touches the model only through `batchReplace` and
preserves the tree's nodes. -/
theorem performReplace_model_viewer {σ : Type} (ops : ModelOps σ)
    (cmp : RNode → RNode → Nat → Int) (vp : Bool) (st : HostState σ)
    (element : RNode) :
    ((performReplace ops cmp vp st element).fst.model
        = if st.viewPresent = true then
            ops.batchReplace st.model
              (getElementsToOperateOnInfo cmp st.selection element st.sortOrder).fst
          else st.model) ∧
    (performReplace ops cmp vp st element).fst.viewer.pre = st.viewer.pre := by
  unfold performReplace
  dsimp only
  cases hlast : (getElementsToOperateOnInfo cmp st.selection element
      st.sortOrder).fst.getLast? with
  | none =>
    simp only [hlast]
    by_cases hv : st.viewPresent = true
    · simp [hv]
    · simp [hv]
  | some cb =>
    simp only [hlast]
    by_cases hk : cb.kind = RMKind.lineMatch
    · rw [if_pos hk]
      constructor
      · by_cases hv : st.viewPresent = true
        · simp [hv]
        · simp [hv]
      · by_cases hv : st.viewPresent = true
        · simp only [getElementToShowReplacePreview_pre]
          simp [hv]
        · simp only [getElementToShowReplacePreview_pre]
          simp [hv]
    · rw [if_neg hk]
      constructor
      · by_cases hv : st.viewPresent = true
        · simp [hv]
        · simp [hv]
      · by_cases hv : st.viewPresent = true
        · simp only [getElementToFocusAfterRemoved_pre]
          simp [hv]
        · simp only [getElementToFocusAfterRemoved_pre]
          simp [hv]

/-- C6: the remove and replace handlers mutate the search-result model only
through `batchRemove`/`batchReplace`: for arbitrary batch operations the
resulting model is exactly the corresponding batch application (or the
unchanged model when the search view is absent or there is nothing to
remove), and every other viewer interaction — navigation, expansion, focus
and selection — leaves the tree's nodes unchanged. -/
theorem model_mutation_only_batch {σ : Type} (ops : ModelOps σ)
    (searchComparer : RNode → RNode → Nat → Int) (viewletPresent : Bool)
    (st : HostState σ) (element : RNode) :
    ((removeActionRun ops searchComparer st element).fst.model =
      if st.viewPresent = true ∧
          (getElementsToOperateOnInfo searchComparer st.selection element
            st.sortOrder).fst.isEmpty = false then
        ops.batchRemove st.model
          (getElementsToOperateOnInfo searchComparer st.selection element
            st.sortOrder).fst
      else st.model) ∧
    ((removeActionRun ops searchComparer st element).fst.viewer.pre
      = st.viewer.pre) ∧
    ((performReplace ops searchComparer viewletPresent st element).fst.model =
      if st.viewPresent = true then
        ops.batchReplace st.model
          (getElementsToOperateOnInfo searchComparer st.selection element
            st.sortOrder).fst
      else st.model) ∧
    ((performReplace ops searchComparer viewletPresent st element).fst.viewer.pre
      = st.viewer.pre) := by
  refine ⟨?_, ?_,
    (performReplace_model_viewer ops searchComparer viewletPresent st element).1,
    (performReplace_model_viewer ops searchComparer viewletPresent st element).2⟩
  · unfold removeActionRun
    dsimp only
    by_cases hempty : (getElementsToOperateOnInfo searchComparer st.selection element
        st.sortOrder).fst.isEmpty = true
    · rw [if_pos hempty, if_neg]
      intro hc
      rw [hempty] at hc
      cases hc.2
    · rw [if_neg hempty, removeActionRunGo_model]
      by_cases hv : st.viewPresent = true
      · rw [if_pos hv, if_pos ⟨hv, by simpa using hempty⟩]
      · rw [if_neg hv, if_neg (fun hc => hv hc.1)]
  · unfold removeActionRun
    dsimp only
    by_cases hempty : (getElementsToOperateOnInfo searchComparer st.selection element
        st.sortOrder).fst.isEmpty = true
    · rw [if_pos hempty]
    · rw [if_neg hempty]
      exact removeActionRunGo_viewer ops st _ _

end SearchActions

namespace SearchActions

theorem afterElem_cons_self (e : RNode) (l : List RNode) :
    afterElem (e :: l) e = l := by
  simp [afterElem, List.dropWhile_cons]

theorem afterElem_cons_of_ne (x e : RNode) (l : List RNode) (h : x ≠ e) :
    afterElem (x :: l) e = afterElem l e := by
  simp [afterElem, List.dropWhile_cons, h]

theorem afterElem_append_left (a b : List RNode) (e : RNode) (he : e ∈ a) :
    afterElem (a ++ b) e = afterElem a e ++ b := by
  induction a with
  | nil => cases he
  | cons x a2 ih =>
    by_cases hx : x = e
    · subst hx
      rw [List.cons_append, afterElem_cons_self, afterElem_cons_self]
    · have he2 : e ∈ a2 := by
        rcases List.mem_cons.mp he with h | h
        · exact absurd h.symm hx
        · exact h
      rw [List.cons_append, afterElem_cons_of_ne x e _ hx,
        afterElem_cons_of_ne x e _ hx, ih he2]

theorem afterElem_append_right (a b : List RNode) (e : RNode) (he : e ∉ a) :
    afterElem (a ++ b) e = afterElem b e := by
  induction a with
  | nil => rfl
  | cons x a2 ih =>
    have hx : x ≠ e := fun h => he (List.mem_cons.mpr (Or.inl h.symm))
    have he2 : e ∉ a2 := fun h => he (List.mem_cons_of_mem x h)
    rw [List.cons_append, afterElem_cons_of_ne x e _ hx, ih he2]

theorem afterElem_eq_drop (l : List RNode) (e : RNode) :
    ∀ idx : Nat, l.Nodup → l.get? idx = some e →
      afterElem l e = l.drop (idx + 1) := by
  induction l with
  | nil => intro idx _ h; cases h
  | cons x t ih =>
    intro idx hnd hidx
    cases idx with
    | zero =>
      have hx : x = e := by simpa using hidx
      subst hx
      rw [afterElem_cons_self]
      rfl
    | succ n =>
      have ht : t.get? n = some e := by simpa using hidx
      have hmem : e ∈ t := List.get?_mem ht
      have hx : x ≠ e := by
        intro h
        subst h
        exact (List.nodup_cons.mp hnd).1 hmem
      rw [afterElem_cons_of_ne x e t hx, ih n (List.nodup_cons.mp hnd).2 ht]
      rfl

theorem nodup_split_unique (m : RNode) :
    ∀ (A A2 B B2 l : List RNode), l.Nodup → l = A ++ m :: B → l = A2 ++ m :: B2 →
      A = A2 ∧ B = B2 := by
  intro A
  induction A with
  | nil =>
    intro A2 B B2 l hnd h1 h2
    subst h1
    cases A2 with
    | nil =>
      simp only [List.nil_append] at h2
      injection h2 with _ hB
      exact ⟨rfl, hB⟩
    | cons y A3 =>
      simp only [List.nil_append, List.cons_append] at h2
      injection h2 with hy hB
      have hm : m ∈ B := by
        rw [hB]
        exact List.mem_append_right _ (List.mem_cons_self m B2)
      exact absurd hm (List.nodup_cons.mp hnd).1
  | cons x A2 ih =>
    intro A3 B B2 l hnd h1 h2
    subst h1
    cases A3 with
    | nil =>
      simp only [List.cons_append, List.nil_append] at h2
      injection h2 with hx hrest
      have hnotin := (List.nodup_cons.mp hnd).1
      rw [hx] at hnotin
      exact absurd (List.mem_append_right _ (List.mem_cons_self m B)) hnotin
    | cons y A4 =>
      simp only [List.cons_append] at h2
      injection h2 with hxy hrest
      subst hxy
      obtain ⟨hA, hB⟩ := ih A4 B B2 (A2 ++ m :: B) (List.nodup_cons.mp hnd).2 rfl hrest
      exact ⟨by rw [hA], hB⟩

theorem get?_findIdx_eq (l : List RNode) (e : RNode) (he : e ∈ l) :
    l.get? (l.findIdx (fun x => decide (x = e))) = some e := by
  induction l with
  | nil => cases he
  | cons x t ih =>
    rw [List.findIdx_cons]
    by_cases hx : x = e
    · simp [hx]
    · have he2 : e ∈ t := by
        rcases List.mem_cons.mp he with h | h
        · exact absurd h.symm hx
        · exact h
      have hih := ih he2
      rw [List.get?_eq_getElem?] at hih
      simp [hx, hih]

/-- `viewer.navigate(element)` starts at the element's visible position. -/
theorem get?_visIdx (f : SForest) (e : RNode) (he : e ∈ f.visible) :
    f.visible.get? (visIdx f e) = some e :=
  get?_findIdx_eq f.visible e he

/-- Stepping `afterElem`: when the suffix after `e` starts with `m`, the
suffix after `m` is its tail. -/
theorem afterElem_next (l : List RNode) (e m : RNode) (r : List RNode)
    (hnd : (l.map RNode.id).Nodup) (h : afterElem l e = m :: r) :
    afterElem l m = r := by
  have hd : l.dropWhile (fun x => decide (x ≠ e)) ≠ [] := by
    intro hnil
    rw [afterElem, hnil] at h
    cases h
  have hhead : (l.dropWhile (fun x => decide (x ≠ e))).head hd = e := by
    have hw := List.head_dropWhile_not (fun x => decide (x ≠ e)) l hd
    simpa using hw
  have hdw : l.dropWhile (fun x => decide (x ≠ e)) = e :: m :: r := by
    cases hX : l.dropWhile (fun x => decide (x ≠ e)) with
    | nil => exact absurd hX hd
    | cons y ys =>
      have hy : y = e := by
        have hh := hhead
        simp only [hX, List.head_cons] at hh
        exact hh
      have hys : ys = m :: r := by
        rw [afterElem, hX] at h
        simpa using h
      rw [hy, hys]
  have hTl : l = l.takeWhile (fun x => decide (x ≠ e)) ++ e :: m :: r := by
    conv_lhs => rw [← List.takeWhile_append_dropWhile (fun x => decide (x ≠ e)) l]
    rw [hdw]
  have hvnd : l.Nodup := List.Nodup.of_map RNode.id hnd
  rw [hTl] at hvnd
  rw [List.nodup_append] at hvnd
  have hmT : m ∉ l.takeWhile (fun x => decide (x ≠ e)) :=
    fun hm => hvnd.2.2 hm (by simp)
  have hem : e ≠ m := by
    intro hE
    have hcons := List.nodup_cons.mp hvnd.2.1
    apply hcons.1
    rw [hE]
    exact List.mem_cons_self m r
  conv_lhs => rw [hTl]
  rw [afterElem_append_right _ _ m hmT, afterElem_cons_of_ne e m _ hem,
    afterElem_cons_self]

end SearchActions

namespace SearchActions

mutual
/-- The visible rows of a subtree are a sublist of its preorder. -/
theorem STree.visible_sublistT (t : STree) : t.visible.Sublist t.pre := by
  cases t with
  | node e c cs =>
    cases c with
    | true => simpa [STree.visible, STree.pre] using (List.nil_sublist cs.pre).cons₂ e
    | false => simpa [STree.visible, STree.pre] using (SForest.visible_sublistF cs).cons₂ e
/-- The visible rows of a forest are a sublist of its preorder. -/
theorem SForest.visible_sublistF (ts : SForest) : ts.visible.Sublist ts.pre := by
  cases ts with
  | nil => exact List.Sublist.refl []
  | cons t ts2 => exact (STree.visible_sublistT t).append (SForest.visible_sublistF ts2)
end

/-- Visible rows and preorder start with the same head. -/
theorem SForest.head?_visible (ts : SForest) : ts.visible.head? = ts.pre.head? := by
  cases ts with
  | nil => rfl
  | cons t ts2 => cases t with | node e c cs => rfl

mutual
/-- `containsId` holds exactly for identities of preorder nodes. -/
theorem STree.containsId_iffT (t : STree) (i : Nat) :
    t.containsId i = true ↔ i ∈ t.pre.map RNode.id := by
  cases t with
  | node e c cs =>
    rw [STree.containsId, STree.pre, Bool.or_eq_true, SForest.containsId_iffF cs i]
    simp only [List.map_cons, List.mem_cons, decide_eq_true_eq]
    constructor
    · rintro (h | h)
      · exact Or.inl h.symm
      · exact Or.inr h
    · rintro (h | h)
      · exact Or.inl h.symm
      · exact Or.inr h
theorem SForest.containsId_iffF (ts : SForest) (i : Nat) :
    ts.containsId i = true ↔ i ∈ ts.pre.map RNode.id := by
  cases ts with
  | nil => simp [SForest.containsId, SForest.pre]
  | cons t ts2 =>
    rw [SForest.containsId, SForest.pre, Bool.or_eq_true,
      STree.containsId_iffT t i, SForest.containsId_iffF ts2 i]
    simp [List.mem_append]
end

mutual
/-- Expanding an absent identity changes nothing. -/
theorem STree.expand_of_not_containsT (t : STree) (i : Nat)
    (h : t.containsId i = false) : t.expand i = t := by
  cases t with
  | node e c cs =>
    simp only [STree.containsId, Bool.or_eq_false_iff, decide_eq_false_iff_not] at h
    simp [STree.expand, SForest.expand_of_not_containsF cs i h.2, h.1]
theorem SForest.expand_of_not_containsF (ts : SForest) (i : Nat)
    (h : ts.containsId i = false) : ts.expand i = ts := by
  cases ts with
  | nil => rfl
  | cons t ts2 =>
    simp only [SForest.containsId, Bool.or_eq_false_iff] at h
    simp [SForest.expand, STree.expand_of_not_containsT t i h.1,
      SForest.expand_of_not_containsF ts2 i h.2]
end

mutual
/-- After expanding identity `i`, every node with that identity is expanded. -/
theorem STree.eol_expandT (t : STree) (i : Nat) : (t.expand i).eol i = true := by
  cases t with
  | node e c cs =>
    by_cases he : e.id = i
    · simp [STree.expand, STree.eol, he, SForest.eol_expandF cs i]
    · simp [STree.expand, STree.eol, he, SForest.eol_expandF cs i]
theorem SForest.eol_expandF (ts : SForest) (i : Nat) : (ts.expand i).eol i = true := by
  cases ts with
  | nil => rfl
  | cons t ts2 =>
    simp [SForest.expand, SForest.eol, STree.eol_expandT t i, SForest.eol_expandF ts2 i]
end

mutual
/-- When line matches are leaves and every node with identity `i` is a line
match, every node with identity `i` is expanded-or-leaf. -/
theorem STree.eol_of_matchLeavesT (t : STree) (i : Nat)
    (hml : t.matchLeaves = true)
    (hk : ∀ e ∈ t.pre, e.id = i → e.kind = RMKind.lineMatch) :
    t.eol i = true := by
  cases t with
  | node e c cs =>
    rw [STree.matchLeaves, Bool.and_eq_true] at hml
    rw [STree.eol, Bool.and_eq_true]
    constructor
    · by_cases hei : e.id = i
      · rw [if_pos hei]
        have hke : e.kind = RMKind.lineMatch :=
          hk e (by simp [STree.pre]) hei
        rw [if_pos hke] at hml
        rw [hml.1]
        simp
      · rw [if_neg hei]
    · exact SForest.eol_of_matchLeavesF cs i hml.2
        (fun x hx hxi => hk x (by simp [STree.pre, hx]) hxi)
theorem SForest.eol_of_matchLeavesF (ts : SForest) (i : Nat)
    (hml : ts.matchLeaves = true)
    (hk : ∀ e ∈ ts.pre, e.id = i → e.kind = RMKind.lineMatch) :
    ts.eol i = true := by
  cases ts with
  | nil => rfl
  | cons t ts2 =>
    rw [SForest.matchLeaves, Bool.and_eq_true] at hml
    rw [SForest.eol, Bool.and_eq_true]
    constructor
    · exact STree.eol_of_matchLeavesT t i hml.1
        (fun x hx hxi => hk x (by simp [SForest.pre, hx]) hxi)
    · exact SForest.eol_of_matchLeavesF ts2 i hml.2
        (fun x hx hxi => hk x (by simp [SForest.pre, hx]) hxi)
end

end SearchActions

namespace SearchActions

mutual
/-- In a subtree with distinct identities, the visible successor of a
visible expanded-or-leaf row equals its preorder successor. -/
theorem STree.afterElem_headT (t : STree) (n : RNode)
    (hnd : (t.pre.map RNode.id).Nodup) (hv : n ∈ t.visible)
    (heol : t.eol n.id = true) :
    (afterElem t.visible n).head? = (afterElem t.pre n).head? := by
  cases t with
  | node e c cs =>
    by_cases hne : n = e
    · subst hne
      rw [show (STree.node n c cs).visible = n :: (if c = true then [] else cs.visible)
          from rfl,
        show (STree.node n c cs).pre = n :: cs.pre from rfl,
        afterElem_cons_self, afterElem_cons_self]
      rw [STree.eol, Bool.and_eq_true] at heol
      have h1 := heol.1
      rw [if_pos rfl] at h1
      cases c with
      | false => simpa using SForest.head?_visible cs
      | true =>
        have hnil : cs.isNil = true := by simpa using h1
        cases cs with
        | nil => rfl
        | cons _ _ => cases hnil
    · have hv2 : n ∈ (if c = true then [] else cs.visible) := by
        simp only [STree.visible] at hv
        rcases List.mem_cons.mp hv with h | h
        · exact absurd h hne
        · exact h
      have hc : c = false := by
        cases c with
        | true => simp at hv2
        | false => rfl
      subst hc
      simp only [if_neg (by simp : ¬(false = true))] at hv2
      have hen : e ≠ n := fun h => hne h.symm
      rw [show (STree.node e false cs).visible = e :: cs.visible by simp [STree.visible],
        show (STree.node e false cs).pre = e :: cs.pre from rfl,
        afterElem_cons_of_ne e n _ hen, afterElem_cons_of_ne e n _ hen]
      apply SForest.afterElem_headF cs n
      · simp only [STree.pre, List.map_cons, List.nodup_cons] at hnd
        exact hnd.2
      · exact hv2
      · rw [STree.eol, Bool.and_eq_true] at heol
        exact heol.2
/-- In a forest with distinct identities, the visible successor of a
visible expanded-or-leaf row equals its preorder successor. -/
theorem SForest.afterElem_headF (ts : SForest) (n : RNode)
    (hnd : (ts.pre.map RNode.id).Nodup) (hv : n ∈ ts.visible)
    (heol : ts.eol n.id = true) :
    (afterElem ts.visible n).head? = (afterElem ts.pre n).head? := by
  cases ts with
  | nil => cases hv
  | cons t ts2 =>
    have hnd2 := hnd
    simp only [SForest.pre, List.map_append, List.nodup_append] at hnd2
    obtain ⟨hndt, hndts, hdisj⟩ := hnd2
    rw [SForest.eol, Bool.and_eq_true] at heol
    rw [show (SForest.cons t ts2).visible = t.visible ++ ts2.visible from rfl,
      show (SForest.cons t ts2).pre = t.pre ++ ts2.pre from rfl]
    by_cases hm : n ∈ t.visible
    · have hpre : n ∈ t.pre := List.Sublist.mem hm (STree.visible_sublistT t)
      rw [afterElem_append_left _ _ n hm, afterElem_append_left _ _ n hpre,
        List.head?_append, List.head?_append,
        STree.afterElem_headT t n hndt hm heol.1, SForest.head?_visible ts2]
    · have hv2 : n ∈ ts2.visible := by
        simp only [SForest.visible] at hv
        rcases List.mem_append.mp hv with h | h
        · exact absurd h hm
        · exact h
      have hnp : n ∉ t.pre := by
        intro hp
        have h1 : n.id ∈ t.pre.map RNode.id := List.mem_map_of_mem RNode.id hp
        have h2 : n.id ∈ ts2.pre.map RNode.id :=
          List.mem_map_of_mem RNode.id
            (List.Sublist.mem hv2 (SForest.visible_sublistF ts2))
        exact hdisj h1 h2
      rw [afterElem_append_right _ _ n hm, afterElem_append_right _ _ n hnp]
      exact SForest.afterElem_headF ts2 n hndts hv2 heol.2
end

end SearchActions

namespace SearchActions

mutual
/-- Expanding the visible row `m` (identity `i`) keeps every row up to and
including `m` at its place, inserting newly revealed rows right after it. -/
theorem STree.visible_expand_decompT (t : STree) (i : Nat) (m : RNode)
    (A B : List RNode) (hnd : (t.pre.map RNode.id).Nodup) (hmi : m.id = i)
    (hdec : t.visible = A ++ m :: B) :
    ∃ Y, (t.expand i).visible = A ++ m :: (Y ++ B) := by
  cases t with
  | node e c cs =>
    rw [show (STree.node e c cs).visible
        = e :: (if c = true then [] else cs.visible) from rfl] at hdec
    cases A with
    | nil =>
      simp only [List.nil_append] at hdec
      injection hdec with hem hVB
      have hid : e.id = i := by rw [hem, hmi]
      have hcs : cs.expand i = cs := by
        apply SForest.expand_of_not_containsF
        by_contra hcon
        simp only [Bool.not_eq_false] at hcon
        have h2 := (SForest.containsId_iffF cs i).mp hcon
        simp only [STree.pre, List.map_cons, List.nodup_cons] at hnd
        exact hnd.1 (by rw [hid]; exact h2)
      cases c with
      | true =>
        refine ⟨cs.visible, ?_⟩
        have hB : B = [] := by simpa using hVB.symm
        rw [show (STree.node e true cs).expand i
            = STree.node e (if e.id = i then false else true) (cs.expand i) from rfl,
          hcs, if_pos hid]
        rw [show (STree.node e false cs).visible = e :: cs.visible by
          simp [STree.visible]]
        rw [hB, hem]
        simp
      | false =>
        refine ⟨[], ?_⟩
        have hB : cs.visible = B := by simpa using hVB
        rw [show (STree.node e false cs).expand i
            = STree.node e (if e.id = i then false else false) (cs.expand i) from rfl,
          hcs, if_pos hid]
        rw [show (STree.node e false cs).visible = e :: cs.visible by
          simp [STree.visible]]
        rw [hB, hem]
        simp
    | cons x A2 =>
      simp only [List.cons_append] at hdec
      injection hdec with hxe hVB
      have hc : c = false := by
        cases c with
        | true => simp at hVB
        | false => rfl
      subst hc
      simp only [if_neg (by simp : ¬(false = true))] at hVB
      have hmcs : m ∈ cs.visible := by
        rw [hVB]
        exact List.mem_append_right _ (List.mem_cons_self m B)
      have hmid : i ∈ cs.pre.map RNode.id := by
        rw [← hmi]
        exact List.mem_map_of_mem RNode.id
          (List.Sublist.mem hmcs (SForest.visible_sublistF cs))
      have hndcs : (cs.pre.map RNode.id).Nodup := by
        simp only [STree.pre, List.map_cons, List.nodup_cons] at hnd
        exact hnd.2
      have hei : ¬ (e.id = i) := by
        intro h
        simp only [STree.pre, List.map_cons, List.nodup_cons] at hnd
        exact hnd.1 (by rw [h]; exact hmid)
      obtain ⟨Y, hY⟩ := SForest.visible_expand_decompF cs i m A2 B hndcs hmi hVB
      refine ⟨Y, ?_⟩
      rw [show (STree.node e false cs).expand i
          = STree.node e (if e.id = i then false else false) (cs.expand i) from rfl,
        if_neg hei]
      rw [show (STree.node e false (cs.expand i)).visible
          = e :: (cs.expand i).visible by simp [STree.visible]]
      rw [hY, hxe]
      simp
/-- Forest version of `STree.visible_expand_decompT`. -/
theorem SForest.visible_expand_decompF (ts : SForest) (i : Nat) (m : RNode)
    (A B : List RNode) (hnd : (ts.pre.map RNode.id).Nodup) (hmi : m.id = i)
    (hdec : ts.visible = A ++ m :: B) :
    ∃ Y, (ts.expand i).visible = A ++ m :: (Y ++ B) := by
  cases ts with
  | nil => exact absurd hdec.symm (by simp [SForest.visible])
  | cons t ts2 =>
    rw [show (SForest.cons t ts2).visible = t.visible ++ ts2.visible from rfl] at hdec
    have hnd2 := hnd
    simp only [SForest.pre, List.map_append, List.nodup_append] at hnd2
    obtain ⟨hndt, hndts, hdisj⟩ := hnd2
    have hvnd : (t.visible ++ ts2.visible).Nodup := by
      have hids : ((t.pre ++ ts2.pre).map RNode.id).Nodup := by
        rw [List.map_append]
        exact List.nodup_append.mpr ⟨hndt, hndts, hdisj⟩
      have hsub : (t.visible ++ ts2.visible).Sublist (t.pre ++ ts2.pre) :=
        (STree.visible_sublistT t).append (SForest.visible_sublistF ts2)
      exact List.Nodup.sublist hsub (List.Nodup.of_map RNode.id hids)
    have hm : m ∈ t.visible ++ ts2.visible := by
      rw [hdec]
      exact List.mem_append_right _ (List.mem_cons_self m B)
    rcases List.mem_append.mp hm with hmt | hmts
    · obtain ⟨A1, B1, h1⟩ := List.append_of_mem hmt
      have hdec2 : t.visible ++ ts2.visible = A1 ++ m :: (B1 ++ ts2.visible) := by
        rw [h1]
        simp
      obtain ⟨hA, hB⟩ := nodup_split_unique m A A1 B (B1 ++ ts2.visible)
        (t.visible ++ ts2.visible) hvnd hdec hdec2
      have hts2 : ts2.expand i = ts2 := by
        apply SForest.expand_of_not_containsF
        by_contra hcon
        simp only [Bool.not_eq_false] at hcon
        have h2 := (SForest.containsId_iffF ts2 i).mp hcon
        have h3 : i ∈ t.pre.map RNode.id := by
          rw [← hmi]
          exact List.mem_map_of_mem RNode.id
            (List.Sublist.mem hmt (STree.visible_sublistT t))
        exact hdisj h3 h2
      obtain ⟨Y, hY⟩ := STree.visible_expand_decompT t i m A1 B1 hndt hmi h1
      refine ⟨Y, ?_⟩
      rw [show (SForest.cons t ts2).expand i
          = SForest.cons (t.expand i) (ts2.expand i) from rfl, hts2]
      rw [show (SForest.cons (t.expand i) ts2).visible
          = (t.expand i).visible ++ ts2.visible from rfl, hY, hA, hB]
      simp
    · obtain ⟨A2, B2, h2⟩ := List.append_of_mem hmts
      have hdec2 : t.visible ++ ts2.visible = (t.visible ++ A2) ++ m :: B2 := by
        rw [h2]
        simp
      obtain ⟨hA, hB⟩ := nodup_split_unique m A (t.visible ++ A2) B B2
        (t.visible ++ ts2.visible) hvnd hdec hdec2
      have ht : t.expand i = t := by
        apply STree.expand_of_not_containsT
        by_contra hcon
        simp only [Bool.not_eq_false] at hcon
        have h3 := (STree.containsId_iffT t i).mp hcon
        have h4 : i ∈ ts2.pre.map RNode.id := by
          rw [← hmi]
          exact List.mem_map_of_mem RNode.id
            (List.Sublist.mem hmts (SForest.visible_sublistF ts2))
        exact hdisj h3 h4
      obtain ⟨Y, hY⟩ := SForest.visible_expand_decompF ts2 i m A2 B2 hndts hmi h2
      refine ⟨Y, ?_⟩
      rw [show (SForest.cons t ts2).expand i
          = SForest.cons (t.expand i) (ts2.expand i) from rfl, ht]
      rw [show (SForest.cons t (ts2.expand i)).visible
          = t.visible ++ (ts2.expand i).visible from rfl, hY, hA, hB]
      simp
end

end SearchActions

namespace SearchActions

/-- The non-expanding scan returns the first later visible row matching `p`. -/
theorem findNextKindLoop_spec (fuel : Nat) :
    ∀ (f : SForest) (idx : Nat) (p : RNode → Bool),
      f.visible.length ≤ fuel + idx + 1 →
      findNextKindLoop fuel f idx p = (f.visible.drop (idx + 1)).find? p := by
  induction fuel with
  | zero =>
    intro f idx p hlen
    have h0 : f.visible.get? (idx + 1) = none :=
      List.get?_eq_none.mpr (by omega)
    have hdrop : f.visible.drop (idx + 1) = [] :=
      List.drop_eq_nil_of_le (by omega)
    rw [hdrop]
    show navCur f (idx + 1) = List.find? p []
    rw [show navCur f (idx + 1) = none from h0]
    rfl
  | succ fuel ih =>
    intro f idx p hlen
    unfold findNextKindLoop
    cases hcur : navCur f (idx + 1) with
    | none =>
      have hlen2 : f.visible.length ≤ idx + 1 := List.get?_eq_none.mp hcur
      rw [List.drop_eq_nil_of_le hlen2]
      rfl
    | some n =>
      have hlt : idx + 1 < f.visible.length := by
        by_contra hge
        rw [navCur, List.get?_eq_none.mpr (by omega)] at hcur
        cases hcur
      have hgetElem : f.visible[idx + 1]? = some n := by
        rw [← List.get?_eq_getElem?]
        exact hcur
      have hdrop : f.visible.drop (idx + 1) = n :: f.visible.drop (idx + 2) := by
        obtain ⟨h1, h2⟩ := List.getElem?_eq_some.mp hgetElem
        rw [List.drop_eq_getElem_cons h1, h2]
      rw [hdrop]
      simp only [hcur]
      rw [List.find?_cons]
      by_cases hp : p n = true
      · simp [hp]
      · have hp2 : p n = false := by simpa [Bool.not_eq_true] using hp
        simp only [hp2]
        exact ih f (idx + 1) p (by omega)

/-- The expanding scan returns the first later preorder line match. -/
theorem findNextMatchLoop_spec (fuel : Nat) :
    ∀ (f : SForest) (idx : Nat) (n : RNode),
      (f.pre.map RNode.id).Nodup →
      f.visible.get? idx = some n →
      f.eol n.id = true →
      f.pre.length ≤ fuel + idx + 1 →
      (findNextMatchLoop fuel f idx).fst
        = (afterElem f.pre n).find? (fun x => decide (x.kind = RMKind.lineMatch)) := by
  induction fuel with
  | zero =>
    intro f idx n hnd hget heol hlen
    have hvlen : f.visible.length ≤ f.pre.length :=
      List.Sublist.length_le (SForest.visible_sublistF f)
    have hnone : f.visible.get? (idx + 1) = none :=
      List.get?_eq_none.mpr (by omega)
    have hvnodup : f.visible.Nodup :=
      List.Nodup.sublist (SForest.visible_sublistF f) (List.Nodup.of_map RNode.id hnd)
    have hav : afterElem f.visible n = f.visible.drop (idx + 1) :=
      afterElem_eq_drop f.visible n idx hvnodup hget
    have hhead : (afterElem f.pre n).head? = none := by
      rw [← SForest.afterElem_headF f n hnd (List.get?_mem hget) heol, hav,
        List.head?_drop, ← List.get?_eq_getElem?]
      exact hnone
    rw [List.head?_eq_none_iff.mp hhead]
    show navCur f (idx + 1) = List.find? _ []
    rw [show navCur f (idx + 1) = none from hnone]
    rfl
  | succ fuel ih =>
    intro f idx n hnd hget heol hlen
    have hvnodup : f.visible.Nodup :=
      List.Nodup.sublist (SForest.visible_sublistF f) (List.Nodup.of_map RNode.id hnd)
    have hav : afterElem f.visible n = f.visible.drop (idx + 1) :=
      afterElem_eq_drop f.visible n idx hvnodup hget
    have hheads := SForest.afterElem_headF f n hnd (List.get?_mem hget) heol
    unfold findNextMatchLoop
    cases hcur : navCur f (idx + 1) with
    | none =>
      have hhead : (afterElem f.pre n).head? = none := by
        rw [← hheads, hav, List.head?_drop, ← List.get?_eq_getElem?]
        exact hcur
      rw [List.head?_eq_none_iff.mp hhead]
      simp [hcur]
    | some m =>
      have hheadv : (afterElem f.visible n).head? = some m := by
        rw [hav, List.head?_drop, ← List.get?_eq_getElem?]
        exact hcur
      have hheadp : (afterElem f.pre n).head? = some m := by
        rw [← hheads]
        exact hheadv
      obtain ⟨rest, hrest⟩ : ∃ rest, afterElem f.pre n = m :: rest := by
        cases hX : afterElem f.pre n with
        | nil =>
          rw [hX] at hheadp
          cases hheadp
        | cons y ys =>
          rw [hX] at hheadp
          injection hheadp with hy
          exact ⟨ys, by rw [hy]⟩
      simp only [hcur]
      by_cases hk : m.kind = RMKind.lineMatch
      · rw [if_pos hk, hrest, List.find?_cons]
        simp [hk]
      · rw [if_neg hk]
        have hnd2 : ((f.expand m.id).pre.map RNode.id).Nodup := by
          rw [SForest.pre_expandF]
          exact hnd
        have hlt : idx + 1 < f.visible.length := by
          by_contra hge
          rw [navCur, List.get?_eq_none.mpr (by omega)] at hcur
          cases hcur
        have hgetElem : f.visible[idx + 1]? = some m := by
          rw [← List.get?_eq_getElem?]
          exact hcur
        have hdec : f.visible
            = f.visible.take (idx + 1) ++ m :: f.visible.drop (idx + 2) := by
          obtain ⟨h1, h2⟩ := List.getElem?_eq_some.mp hgetElem
          conv_lhs => rw [← List.take_append_drop (idx + 1) f.visible]
          rw [List.drop_eq_getElem_cons h1, h2]
        have htklen : (f.visible.take (idx + 1)).length = idx + 1 := by
          rw [List.length_take]
          omega
        obtain ⟨Y, hY⟩ := SForest.visible_expand_decompF f m.id m
          (f.visible.take (idx + 1)) (f.visible.drop (idx + 2)) hnd rfl hdec
        have hget2 : (f.expand m.id).visible.get? (idx + 1) = some m := by
          rw [hY, List.get?_append_right (by omega), htklen]
          simp
        have heol2 : (f.expand m.id).eol m.id = true := SForest.eol_expandF f m.id
        have hlen2 : (f.expand m.id).pre.length ≤ fuel + (idx + 1) + 1 := by
          rw [SForest.pre_expandF]
          omega
        rw [ih (f.expand m.id) (idx + 1) m hnd2 hget2 heol2 hlen2,
          SForest.pre_expandF, afterElem_next f.pre n m rest hnd hrest,
          hrest, List.find?_cons]
        simp [hk]

/-- C3: `getNextElementAfterRemoved` returns the first element strictly
after the given one in navigator order that has the same class: the next
`FolderMatch` for a folder, the next `FileMatch` for a file, and, with
every non-`Match` row passed over expanded, the next `Match` — which is the
first line match after the element in the full preorder; the navigator's
final `current()` value is `null` when no such element exists (`find?` on
the exhausted suffix). -/
theorem getNextElementAfterRemoved_finds_next_same_kind
    (f : SForest) (e : RNode)
    (hnd : (f.pre.map RNode.id).Nodup)
    (hvis : e ∈ f.visible)
    (hml : f.matchLeaves = true) :
    (getNextElementAfterRemoved f e).fst
      = (if e.kind.isFolder = true then
          (f.visible.drop (visIdx f e + 1)).find? (fun x => x.kind.isFolder)
        else if e.kind = RMKind.fileMatch then
          (f.visible.drop (visIdx f e + 1)).find?
            (fun x => decide (x.kind = RMKind.fileMatch))
        else
          (afterElem f.pre e).find?
            (fun x => decide (x.kind = RMKind.lineMatch))) := by
  unfold getNextElementAfterRemoved
  by_cases hf : e.kind.isFolder = true
  · simp only [if_pos hf]
    exact findNextKindLoop_spec f.visible.length f (visIdx f e) _ (by omega)
  · simp only [if_neg hf]
    by_cases hfile : e.kind = RMKind.fileMatch
    · simp only [if_pos hfile]
      exact findNextKindLoop_spec f.visible.length f (visIdx f e) _ (by omega)
    · simp only [if_neg hfile]
      have hkind : e.kind = RMKind.lineMatch := by
        have hall : ∀ k : RMKind, k.isFolder = false → k ≠ RMKind.fileMatch →
            k = RMKind.lineMatch := by
          intro k h1 h2
          cases k
          · cases h1
          · cases h1
          · exact absurd rfl h2
          · rfl
        apply hall
        · simpa [Bool.not_eq_true] using hf
        · exact hfile
      have hpre : e ∈ f.pre := List.Sublist.mem hvis (SForest.visible_sublistF f)
      have hk : ∀ x ∈ f.pre, x.id = e.id → x.kind = RMKind.lineMatch := by
        intro x hx hxe
        have hxx : x = e := List.inj_on_of_nodup_map hnd hx hpre hxe
        rw [hxx, hkind]
      have heol : f.eol e.id = true := SForest.eol_of_matchLeavesF f e.id hml hk
      exact findNextMatchLoop_spec f.size f (visIdx f e) e hnd
        (get?_visIdx f e hvis) heol (by simp only [SForest.size]; omega)

/-- Witness for C3: from the first of two matches under an expanded file,
the next same-kind element is the second match. -/
theorem getNextElementAfterRemoved_finds_next_same_kind_witness :
    (getNextElementAfterRemoved wForest wM1).fst = some wM2 := by
  rw [getNextElementAfterRemoved_finds_next_same_kind wForest wM1
    (by decide) (by decide) (by decide)]
  decide

end SearchActions
